import Mathlib

/-!
# Channel-version parsing and matching (`pkg/version/version.go`)

A shallow embedding of the channel-version core of `pkg/version`:
`parseChannelVersion`, `channelVersion.String`, `Match`, `NewChannels`,
`Channels.Match`, the comparator `byCV.Less` and the construction step of
`getLatestVersions`.

Modelling conventions.

* A Go `string` is a Lean `String`; Go `==` on strings is Lean equality.  The
  only byte the program ever searches for is the ASCII hyphen, so cutting a
  string at that byte and cutting it at that character agree.
* Go `<` on strings is the lexicographic order of the character lists.
* A Go `map[string]string` is the list of its entries, keys pairwise
  different; the order of a `range` over it is any rearrangement of that list.
* `sort.Sort` is a parameter constrained by its contract (`SortsByCV`); the
  insertion sort of package `sort` is given as one function that meets it.
* A Go `error` result is `Except String Unit`: `.ok ()` is `nil`, `.error m` is
  an error whose `Error()` text is `m`.  A `(T, error)` result is
  `Except String T`.
* `fmt.Errorf` / `fmt.Sprintf` with `%s` verbs are string concatenation; a
  `channelVersion` printed with `%s` is rendered by its `String` method, an
  `error` by its message.
-/

set_option autoImplicit false

deriving instance DecidableEq for Except

/-! ## Standard-library helpers used by the source -/

/-- Go `strings.IndexByte`, on the characters of a string: the position of the
first occurrence of `c`, or `none` where Go returns `-1`. -/
def IndexByte : List Char → Char → Option Nat
  | [], _ => none
  | x :: xs, c => if x = c then some 0 else (IndexByte xs c).map (· + 1)

/-- The loop of Go `strings.SplitN` (`genSplit`) for a one-character separator:
`k` is the number of cuts still allowed (`n - 1 - i` in the Go loop).  Each
round finds the separator, stores the text before it and continues after it;
the unsplit remainder is the last element. -/
def splitLoop (sep : Char) : Nat → List Char → List String
  | 0, s => [String.mk s]
  | k + 1, s =>
    match IndexByte s sep with
    | none => [String.mk s]
    | some m => String.mk (s.take m) :: splitLoop sep k (s.drop (m + 1))

/-- Go `strings.SplitN(s, sep, n)` for a one-character separator and `n ≥ 0`:
`n = 0` gives no substrings, otherwise at most `n` substrings, the last being
the unsplit remainder.  As in Go, `n` is first capped at the length of `s` plus
one; a string has no more separators than characters, so the cap changes no
result. -/
def SplitN (s : String) (sep : Char) (n : Nat) : List String :=
  if n = 0 then [] else splitLoop sep (min n (s.length + 1) - 1) s.data

/-! ## Data model -/

/-- The `channelVersion` struct. -/
structure channelVersion where
  channel : String
  version : String
deriving DecidableEq, Repr

/-- The `Channels` struct: a slice of `channelVersion`. -/
structure Channels where
  array : List channelVersion
deriving DecidableEq, Repr

/-! ## Operations -/

/-- The method `func (cv channelVersion) String() string`:
`fmt.Sprintf("%s-%s", cv.channel, cv.version)`. -/
def channelVersion.String (cv : channelVersion) : String :=
  cv.channel ++ "-" ++ cv.version

/-- The function `parseChannelVersion`: split at the first hyphen into at most
two parts; exactly two parts give a `channelVersion`, anything else is the
error `unsupported version format: <cv>`. -/
def parseChannelVersion (cv : String) : Except String channelVersion :=
  match SplitN cv '-' 2 with
  | [p0, p1] => .ok { channel := p0, version := p1 }
  | _ => .error ("unsupported version format: " ++ cv)

/-- The function `Match(expectedVersion, actualVersion)`. -/
def Match (expectedVersion actualVersion : String) : Except String Unit :=
  if expectedVersion = "" then
    .error "expected version is empty"
  else if actualVersion = "" then
    .error "actual version is empty"
  else if actualVersion = expectedVersion then
    .ok ()
  else
    match parseChannelVersion actualVersion with
    | .error err => .error ("failed to parse actual version: " ++ err)
    | .ok actual =>
      match parseChannelVersion expectedVersion with
      | .error err => .error ("failed to parse expected version: " ++ err)
      | .ok expected =>
        if actual.channel ≠ expected.channel then
          .error ("mismatched channels: running " ++ actual.String ++
            " but retrieved " ++ expected.String)
        else
          .error ("is running version " ++ actual.version ++ " but the latest " ++
            actual.channel ++ " version is " ++ expected.version)

/-- The `for _, channel := range channels` loop of `NewChannels`: `acc` is
`c.array` so far; a parse error returns `Channels{}` and that error, otherwise
the parsed entry is appended. -/
def NewChannels.loop : List String → List channelVersion → Channels × Except String Unit
  | [], acc => ({ array := acc }, .ok ())
  | channel :: rest, acc =>
    match parseChannelVersion channel with
    | .error err => ({ array := [] }, .error err)
    | .ok cv => NewChannels.loop rest (acc ++ [cv])

/-- The function `NewChannels`: the pair of its two results, the `Channels`
value and the error. -/
def NewChannels (channels : List String) : Channels × Except String Unit :=
  NewChannels.loop channels []

/-- The `for _, cv := range c.array` loop of `Channels.Match`: the first entry
whose channel is the channel of `actual` decides; with no such entry the
result is `unsupported version channel: <actualVersion>`. -/
def Channels.matchLoop (actualVersion : String) (actual : channelVersion) :
    List channelVersion → Except String Unit
  | [] => .error ("unsupported version channel: " ++ actualVersion)
  | cv :: rest =>
    if cv.channel = actual.channel then
      Match cv.String actual.String
    else
      Channels.matchLoop actualVersion actual rest

/-- The method `func (c Channels) Match(actualVersion string) error`. -/
def Channels.Match (c : Channels) (actualVersion : String) : Except String Unit :=
  if actualVersion = "" then
    .error "actual version is empty"
  else
    match parseChannelVersion actualVersion with
    | .error err => .error ("failed to parse actual version: " ++ err)
    | .ok actual => Channels.matchLoop actualVersion actual c.array

/-- The method `func (b byCV) Less(i, j int) bool`, as a function of the two
entries `b[i]` and `b[j]` it reads.  Go compares strings with `<` byte by byte;
on UTF-8 text that is the lexicographic order of the characters, here the
order of the character lists. -/
def byCV.Less (bi bj : channelVersion) : Bool :=
  if bi.channel = "" then
    true
  else if bj.channel = "" then
    false
  else
    decide (bi.channel.data < bj.channel.data)

/-- Go `insertionSort` of package `sort`, the inner loop for one new element
`x`: the sorted part is given last element first, and `x` moves towards the
front as long as `Less(x, previous)` holds. -/
def insertionSort.shift (x : channelVersion) : List channelVersion → List channelVersion
  | [] => [x]
  | p :: ps => if byCV.Less x p then p :: insertionSort.shift x ps else x :: p :: ps

/-- Go `insertionSort` of package `sort`, the outer loop: `done` is the sorted
part so far, last element first. -/
def insertionSort.loop : List channelVersion → List channelVersion → List channelVersion
  | [], done => done.reverse
  | x :: rest, done => insertionSort.loop rest (insertionSort.shift x done)

/-- Go `insertionSort` of package `sort` with the `byCV` comparator: the
algorithm `sort.Sort` runs on short slices. -/
def insertionSort (a : List channelVersion) : List channelVersion :=
  insertionSort.loop a []

/-- What `sort.Sort(byCV(a))` guarantees on a slice whose entries have pairwise
different channels: the result is a rearrangement of `a` in which no entry is
`Less` than an entry before it.  `sort.Sort` is not stable and its algorithm
depends on the Go release, so the construction below takes the sort as a
parameter that meets this contract. -/
def SortsByCV (sort : List channelVersion → List channelVersion) : Prop :=
  ∀ a : List channelVersion, (a.map (·.channel)).Nodup →
    (sort a).Perm a ∧ (sort a).Pairwise (fun x y => byCV.Less y x = false)

/-- The construction step of `getLatestVersions` (from `channels := Channels{}`
to `return channels, nil`): `versionRsp` is the decoded map as the sequence of
its entries in the order `range` visits them; each entry is appended as
`channelVersion{c, v}` and the slice is sorted. -/
def getLatestVersions.build (sort : List channelVersion → List channelVersion)
    (versionRsp : List (String × String)) : Channels :=
  { array := sort (versionRsp.foldl (fun array cv => array ++ [⟨cv.1, cv.2⟩]) []) }

/-! ## Vocabulary of the specification -/

/-- The text of `s` before its first hyphen (all of `s` when it has none). -/
def beforeHyphen (s : String) : String :=
  String.mk (s.data.takeWhile (· ≠ '-'))

/-- The text of `s` after its first hyphen (empty when it has none). -/
def afterHyphen (s : String) : String :=
  String.mk ((s.data.dropWhile (· ≠ '-')).drop 1)

/-- Whether `s` contains a hyphen. -/
def hasHyphen (s : String) : Prop := '-' ∈ s.data

instance (s : String) : Decidable (hasHyphen s) := by
  unfold hasHyphen; infer_instance

/-- The entries of a slice are in ascending order of channel (an empty channel,
the least string, comes first). -/
def sortedByChannel (l : List channelVersion) : Prop :=
  l.Pairwise (fun x y => x.channel.data ≤ y.channel.data)

instance (l : List channelVersion) : Decidable (sortedByChannel l) := by
  unfold sortedByChannel; infer_instance

/-- The first entry of a slice whose channel is `ch`. -/
def firstOfChannel (ch : String) (l : List channelVersion) : Option channelVersion :=
  l.find? (fun cv => cv.channel = ch)

/-! ## The cases of `TestMatch` and `TestChannelsMatch`, evaluated on the model -/

example : Match "dev-foo" "dev-foo" = .ok () := by decide
example : Match "dev-foo-bar" "dev-foo-bar" = .ok () := by decide
example : Match "dev-foo-bar" "dev-foo-baz" =
    .error "is running version foo-baz but the latest dev version is foo-bar" := by decide
example : Match "dev-foo" "dev-bar" =
    .error "is running version bar but the latest dev version is foo" := by decide
example : Match "dev-foo" "git-foo" =
    .error "mismatched channels: running git-foo but retrieved dev-foo" := by decide
example : Match "badformat" "dev-foo" =
    .error "failed to parse expected version: unsupported version format: badformat" := by
  decide
example : Match "dev-foo" "badformat" =
    .error "failed to parse actual version: unsupported version format: badformat" := by
  decide
example : Channels.Match
    ⟨[⟨"version", "stable-2.1.0"⟩, ⟨"foo", "foo-1.2.3"⟩, ⟨"dev", "undefined"⟩]⟩
    "dev-undefined" = .ok () := by decide
example : Channels.Match
    ⟨[⟨"version", "stable-2.1.0"⟩, ⟨"foo", "foo-1.2.3"⟩, ⟨"dev", "latest"⟩]⟩
    "dev-older" = .error "is running version older but the latest dev version is latest" := by
  decide

/-! ## Lemmas on the helpers -/

theorem IndexByte_eq_none (c : Char) (l : List Char) :
    IndexByte l c = none ↔ c ∉ l := by
  induction l with
  | nil => simp [IndexByte]
  | cons x xs ih =>
    by_cases h : x = c
    · simp [IndexByte, h]
    · have h2 : ¬ c = x := fun e => h e.symm
      simp [IndexByte, h, h2, ih]

theorem IndexByte_some (c : Char) (l : List Char) (m : Nat)
    (h : IndexByte l c = some m) :
    l.take m = l.takeWhile (· ≠ c) ∧
      l.drop (m + 1) = (l.dropWhile (· ≠ c)).drop 1 := by
  induction l generalizing m with
  | nil => simp [IndexByte] at h
  | cons x xs ih =>
    by_cases hx : x = c
    · simp [IndexByte, hx] at h
      subst h
      simp [hx, List.takeWhile, List.dropWhile]
    · simp only [IndexByte, hx, if_false, Option.map_eq_some'] at h
      obtain ⟨k, hk, rfl⟩ := h
      have := ih k hk
      simp [List.takeWhile, List.dropWhile, hx, this.1, this.2]

theorem splitLoop_one_of_mem (l : List Char) (h : '-' ∈ l) :
    splitLoop '-' 1 l =
      [String.mk (l.takeWhile (· ≠ '-')), String.mk ((l.dropWhile (· ≠ '-')).drop 1)] := by
  cases hi : IndexByte l '-' with
  | none => exact absurd h ((IndexByte_eq_none '-' l).1 hi)
  | some m =>
    have := IndexByte_some '-' l m hi
    simp [splitLoop, hi, this.1, this.2]

theorem splitLoop_of_not_mem (l : List Char) (k : Nat) (h : '-' ∉ l) :
    splitLoop '-' k l = [String.mk l] := by
  cases k with
  | zero => rfl
  | succ k =>
    unfold splitLoop
    rw [(IndexByte_eq_none '-' l).2 h]

/-- On a string with a hyphen the parser returns the text before the first
hyphen as channel and the text after it as version. -/
theorem parse_of_hyphen (s : String) (h : hasHyphen s) :
    parseChannelVersion s = .ok ⟨beforeHyphen s, afterHyphen s⟩ := by
  have hlen : 1 ≤ s.length := by
    unfold hasHyphen at h
    exact List.length_pos_of_mem h
  have hk : min 2 (s.length + 1) - 1 = 1 := by omega
  simp [parseChannelVersion, SplitN, hk, splitLoop_one_of_mem s.data h, beforeHyphen,
    afterHyphen]

/-- On a string without a hyphen the parser reports the unsupported format. -/
theorem parse_of_no_hyphen (s : String) (h : ¬ hasHyphen s) :
    parseChannelVersion s = .error ("unsupported version format: " ++ s) := by
  simp [parseChannelVersion, SplitN, splitLoop_of_not_mem s.data _ h]

theorem before_no_hyphen (s : String) : ¬ hasHyphen (beforeHyphen s) := by
  unfold hasHyphen beforeHyphen
  intro h
  have := List.mem_takeWhile_imp h
  simp at this

theorem before_after (s : String) (h : hasHyphen s) :
    beforeHyphen s ++ "-" ++ afterHyphen s = s := by
  apply String.ext
  unfold hasHyphen at h
  simp only [beforeHyphen, afterHyphen, String.data_append]
  have hne : s.data.dropWhile (· ≠ '-') ≠ [] := by
    intro e
    rw [List.dropWhile_eq_nil_iff] at e
    have := e _ h
    simp at this
  have hhd : ∀ x xs, s.data.dropWhile (· ≠ '-') = x :: xs → x = '-' := by
    intro x xs e
    have := List.head_dropWhile_not (· ≠ '-') s.data (by rw [e]; simp)
    simp only [e, List.head_cons] at this
    simpa using this
  cases hd : s.data.dropWhile (· ≠ '-') with
  | nil => exact absurd hd hne
  | cons x xs =>
    have hx := hhd x xs hd
    subst hx
    have := List.takeWhile_append_dropWhile (· ≠ '-') s.data
    rw [hd] at this
    simpa using this

theorem hyphen_in_String (cv : channelVersion) : hasHyphen cv.String := by
  simp [hasHyphen, channelVersion.String, String.data_append]

theorem before_String (cv : channelVersion) (h : ¬ hasHyphen cv.channel) :
    beforeHyphen cv.String = cv.channel := by
  unfold hasHyphen at h
  apply String.ext
  simp only [beforeHyphen, channelVersion.String, String.data_append]
  rw [List.append_assoc, List.takeWhile_append_of_pos]
  · simp [List.takeWhile]
  · intro x hx
    have : x ≠ '-' := fun (e : x = '-') => h (e ▸ hx)
    simpa using this

theorem after_String (cv : channelVersion) (h : ¬ hasHyphen cv.channel) :
    afterHyphen cv.String = cv.version := by
  unfold hasHyphen at h
  apply String.ext
  simp only [afterHyphen, channelVersion.String, String.data_append]
  rw [List.append_assoc, List.dropWhile_append_of_pos]
  · simp [List.dropWhile]
  · intro x hx
    have : x ≠ '-' := fun (e : x = '-') => h (e ▸ hx)
    simpa using this

/-- A successful parse comes from a string with a hyphen and returns its two
sides. -/
theorem parse_ok_inv (raw : String) (cv : channelVersion)
    (h : parseChannelVersion raw = .ok cv) :
    hasHyphen raw ∧ cv = ⟨beforeHyphen raw, afterHyphen raw⟩ := by
  by_cases hh : hasHyphen raw
  · rw [parse_of_hyphen raw hh] at h
    injection h with h
    exact ⟨hh, h.symm⟩
  · rw [parse_of_no_hyphen raw hh] at h
    cases h

theorem hyphen_ne_empty (s : String) (h : hasHyphen s) : s ≠ "" := by
  intro e
  subst e
  exact absurd h (by decide)

/-- The outcome of `Match` on two different strings that both contain a hyphen,
by channel. -/
theorem Match_of_hyphens (expected actual : String) (hne : expected ≠ actual)
    (he : hasHyphen expected) (ha : hasHyphen actual) :
    Match expected actual =
      if beforeHyphen actual ≠ beforeHyphen expected then
        .error ("mismatched channels: running " ++ actual ++ " but retrieved " ++ expected)
      else
        .error ("is running version " ++ afterHyphen actual ++ " but the latest " ++
          beforeHyphen actual ++ " version is " ++ afterHyphen expected) := by
  have h1 := hyphen_ne_empty expected he
  have h2 := hyphen_ne_empty actual ha
  have h3 : ¬ actual = expected := fun e => hne e.symm
  simp only [Match, h1, h2, h3, if_false, parse_of_hyphen expected he, parse_of_hyphen actual ha,
    channelVersion.String, before_after expected he, before_after actual ha]

/-! ## Direct comparison: `Match` -/

/-- C1: `Match expected actual` returns no error exactly when `expected` is
non-empty and the two raw strings are equal; so `Match v v` succeeds for every
non-empty `v`, and two different strings never match. -/
theorem Match_ok_iff (expected actual : String) :
    Match expected actual = .ok () ↔ expected ≠ "" ∧ expected = actual := by
  unfold Match
  by_cases h1 : expected = ""
  · simp [h1]
  · by_cases h2 : actual = ""
    · have : ¬ expected = actual := fun e => h1 (e.trans h2)
      simp [h1, h2, this]
    · by_cases h3 : actual = expected
      · simp [h1, h3]
      · have : ¬ expected = actual := fun e => h3 e.symm
        simp only [h1, h2, h3, if_false, this, and_false, iff_false]
        cases parseChannelVersion actual with
        | error e => simp
        | ok a =>
          cases parseChannelVersion expected with
          | error e => simp
          | ok e => by_cases hc : a.channel = e.channel <;> simp [hc]

/-- C2: `Match "" v` fails with `expected version is empty` for every `v`, and
`Match v ""` fails with `actual version is empty` for every non-empty `v`,
whatever `v` contains. -/
theorem Match_empty (v : String) :
    Match "" v = .error "expected version is empty" ∧
      (v ≠ "" → Match v "" = .error "actual version is empty") := by
  constructor
  · simp [Match]
  · intro h
    simp [Match, h]

/-- C3: for different strings that both contain a hyphen and have the same text
before the first hyphen, `Match` fails with `is running version <av> but the
latest <ch> version is <ev>`, `ch` the text before the first hyphen of `actual`,
`av` and `ev` the texts after the first hyphen of `actual` and `expected`. -/
theorem Match_version_mismatch (expected actual : String) (hne : expected ≠ actual)
    (he : hasHyphen expected) (ha : hasHyphen actual)
    (hch : beforeHyphen expected = beforeHyphen actual) :
    Match expected actual =
      .error ("is running version " ++ afterHyphen actual ++ " but the latest " ++
        beforeHyphen actual ++ " version is " ++ afterHyphen expected) := by
  rw [Match_of_hyphens expected actual hne he ha]
  simp [hch]

theorem Match_version_mismatch_witness :
    Match "dev-foo-bar" "dev-foo-baz" =
      .error "is running version foo-baz but the latest dev version is foo-bar" :=
  (Match_version_mismatch "dev-foo-bar" "dev-foo-baz" (by decide) (by decide) (by decide)
    (by decide)).trans (by decide)

/-- C4: for strings that both contain a hyphen and differ in the text before
the first hyphen, `Match` fails with `mismatched channels: running <actual> but
retrieved <expected>`; the two values printed are the canonical forms of the
parsed identifiers, and these are the raw inputs. -/
theorem Match_channel_mismatch (expected actual : String)
    (he : hasHyphen expected) (ha : hasHyphen actual)
    (hch : beforeHyphen expected ≠ beforeHyphen actual) :
    ∃ a e, parseChannelVersion actual = .ok a ∧ parseChannelVersion expected = .ok e ∧
      a.String = actual ∧ e.String = expected ∧
      Match expected actual =
        .error ("mismatched channels: running " ++ a.String ++ " but retrieved " ++ e.String) ∧
      Match expected actual =
        .error ("mismatched channels: running " ++ actual ++ " but retrieved " ++ expected) := by
  have hne : expected ≠ actual := fun e => hch (by rw [e])
  have hch2 : beforeHyphen actual ≠ beforeHyphen expected := fun e => hch e.symm
  have hm := Match_of_hyphens expected actual hne he ha
  rw [if_pos hch2] at hm
  refine ⟨_, _, parse_of_hyphen actual ha, parse_of_hyphen expected he, ?_, ?_, ?_, hm⟩
  · exact before_after actual ha
  · exact before_after expected he
  · rw [hm]
    simp only [channelVersion.String, before_after actual ha, before_after expected he]

theorem Match_channel_mismatch_witness :
    Match "dev-foo" "git-foo" =
      .error "mismatched channels: running git-foo but retrieved dev-foo" := by
  obtain ⟨_, _, _, _, _, _, _, h⟩ :=
    Match_channel_mismatch "dev-foo" "git-foo" (by decide) (by decide) (by decide)
  exact h

/-- C5: for non-empty, different strings: when `actual` has no hyphen, `Match`
fails with `failed to parse actual version: unsupported version format:
<actual>`, whether or not `expected` parses; when `actual` has a hyphen and
`expected` has none, it fails with `failed to parse expected version:
unsupported version format: <expected>`. -/
theorem Match_parse_failure (expected actual : String) (he0 : expected ≠ "")
    (ha0 : actual ≠ "") (hne : expected ≠ actual) :
    (¬ hasHyphen actual →
      Match expected actual =
        .error ("failed to parse actual version: unsupported version format: " ++ actual)) ∧
    (hasHyphen actual → ¬ hasHyphen expected →
      Match expected actual =
        .error ("failed to parse expected version: unsupported version format: " ++
          expected)) := by
  have h3 : ¬ actual = expected := fun e => hne e.symm
  constructor
  · intro ha
    simp only [Match, he0, ha0, h3, if_false, parse_of_no_hyphen actual ha]
    rw [← String.append_assoc]
    rfl
  · intro ha he
    simp only [Match, he0, ha0, h3, if_false, parse_of_hyphen actual ha,
      parse_of_no_hyphen expected he]
    rw [← String.append_assoc]
    rfl

theorem Match_parse_failure_witness :
    Match "dev-foo" "badformat" =
        .error "failed to parse actual version: unsupported version format: badformat" ∧
      Match "worse" "badformat" =
        .error "failed to parse actual version: unsupported version format: badformat" ∧
      Match "badformat" "dev-foo" =
        .error "failed to parse expected version: unsupported version format: badformat" :=
  ⟨(Match_parse_failure "dev-foo" "badformat" (by decide) (by decide) (by decide)).1
      (by decide),
    (Match_parse_failure "worse" "badformat" (by decide) (by decide) (by decide)).1
      (by decide),
    (Match_parse_failure "badformat" "dev-foo" (by decide) (by decide) (by decide)).2
      (by decide) (by decide)⟩

/-! ## Parsing and formatting -/

/-- C6: `parseChannelVersion raw` fails exactly when `raw` has no hyphen, the
error text is then `unsupported version format: ` followed by `raw`, and the
string `dev-`, which ends right after its first hyphen, parses (with an empty
version). -/
theorem parse_error_iff (raw : String) :
    ((∃ e, parseChannelVersion raw = .error e) ↔ ¬ hasHyphen raw) ∧
      (∀ e, parseChannelVersion raw = .error e → e = "unsupported version format: " ++ raw) ∧
      parseChannelVersion "dev-" = .ok ⟨"dev", ""⟩ := by
  refine ⟨?_, ?_, by decide⟩
  · by_cases h : hasHyphen raw
    · simp [parse_of_hyphen raw h, h]
    · simp [parse_of_no_hyphen raw h, h]
  · intro e
    by_cases h : hasHyphen raw
    · simp [parse_of_hyphen raw h]
    · rw [parse_of_no_hyphen raw h]
      intro he
      injection he with he
      exact he.symm

/-- C7: parsing undoes formatting: when the channel of `cv` is non-empty and
has no hyphen, `parseChannelVersion cv.String` succeeds and returns `cv`,
whatever the version is. -/
theorem parse_String (cv : channelVersion) (_hne : cv.channel ≠ "")
    (hch : ¬ hasHyphen cv.channel) :
    parseChannelVersion cv.String = .ok cv := by
  rw [parse_of_hyphen cv.String (hyphen_in_String cv), before_String cv hch,
    after_String cv hch]

theorem parse_String_witness :
    parseChannelVersion (channelVersion.String ⟨"dev", "foo-bar"⟩) = .ok ⟨"dev", "foo-bar"⟩ :=
  parse_String ⟨"dev", "foo-bar"⟩ (by decide) (by decide)

/-- C8: formatting undoes parsing, and the split is at the first hyphen only:
when `parseChannelVersion raw` succeeds with `cv`, the channel of `cv` has no
hyphen and is the text before the first hyphen of `raw`, the version of `cv` is
all the text after that hyphen, and `cv.String` is `raw`. -/
theorem String_parse (raw : String) (cv : channelVersion)
    (h : parseChannelVersion raw = .ok cv) :
    ¬ hasHyphen cv.channel ∧ cv.channel = beforeHyphen raw ∧
      cv.version = afterHyphen raw ∧ cv.String = raw := by
  obtain ⟨hh, rfl⟩ := parse_ok_inv raw cv h
  exact ⟨before_no_hyphen raw, rfl, rfl, before_after raw hh⟩

theorem String_parse_witness :
    ¬ hasHyphen "dev" ∧ "dev" = beforeHyphen "dev-foo-bar" ∧
      "foo-bar" = afterHyphen "dev-foo-bar" ∧
      channelVersion.String ⟨"dev", "foo-bar"⟩ = "dev-foo-bar" :=
  String_parse "dev-foo-bar" ⟨"dev", "foo-bar"⟩ (by decide)

/-- C9, as stated, fails: the string `-1.2.3` begins with a hyphen and is
accepted, with an empty channel. -/
theorem parse_empty_channel :
    parseChannelVersion "-1.2.3" = .ok ⟨"", "1.2.3"⟩ ∧
      ¬ (∀ raw cv, parseChannelVersion raw = .ok cv → cv.channel ≠ "") := by
  refine ⟨by decide, fun h => ?_⟩
  exact h "-1.2.3" ⟨"", "1.2.3"⟩ (by decide) rfl

/-- C9, amended: when `parseChannelVersion raw` succeeds, the returned channel
is the text before the first hyphen of `raw`, and it is empty exactly when
`raw` begins with a hyphen. -/
theorem parse_channel (raw : String) (cv : channelVersion)
    (h : parseChannelVersion raw = .ok cv) :
    cv.channel = beforeHyphen raw ∧ (cv.channel = "" ↔ raw.data.head? = some '-') := by
  obtain ⟨hh, rfl⟩ := parse_ok_inv raw cv h
  refine ⟨rfl, ?_⟩
  show beforeHyphen raw = "" ↔ _
  unfold beforeHyphen
  unfold hasHyphen at hh
  cases hd : raw.data with
  | nil => rw [hd] at hh; cases hh
  | cons x xs =>
    by_cases hx : x = '-'
    · subst hx
      simp [List.takeWhile]
    · simp only [List.takeWhile, hx, ne_eq, not_false_eq_true, decide_True, List.head?_cons,
        Option.some.injEq, iff_false]
      intro e
      have := congrArg String.data e
      simp at this

theorem parse_channel_witness :
    ("" : String) = beforeHyphen "-1.2.3" ∧
      (("" : String) = "" ↔ ("-1.2.3" : String).data.head? = some '-') :=
  parse_channel "-1.2.3" ⟨"", "1.2.3"⟩ (by decide)

/-! ## Scoped comparison: `Channels.Match` -/

theorem matchLoop_no_entry (actualVersion : String) (actual : channelVersion)
    (l : List channelVersion) (h : ∀ cv ∈ l, cv.channel ≠ actual.channel) :
    Channels.matchLoop actualVersion actual l =
      .error ("unsupported version channel: " ++ actualVersion) := by
  induction l with
  | nil => rfl
  | cons cv rest ih =>
    have h1 : cv.channel ≠ actual.channel := h cv (List.mem_cons_self _ _)
    have h2 := ih (fun x hx => h x (List.mem_cons_of_mem _ hx))
    simp only [Channels.matchLoop, h1, if_false, h2]

/-- C10: for every `Channels` value `c` (the empty one included) and every
non-empty `actual` that contains a hyphen: when no entry of `c` has the text
before the first hyphen of `actual` as its channel, `c.Match actual` fails with
`unsupported version channel: ` followed by the raw `actual`. -/
theorem Channels_Match_unsupported (c : Channels) (actual : String) (_hne : actual ≠ "")
    (ha : hasHyphen actual)
    (hno : ∀ cv ∈ c.array, cv.channel ≠ beforeHyphen actual) :
    c.Match actual = .error ("unsupported version channel: " ++ actual) := by
  have h0 := hyphen_ne_empty actual ha
  simp only [Channels.Match, h0, if_false, parse_of_hyphen actual ha]
  exact matchLoop_no_entry actual _ c.array hno

theorem Channels_Match_unsupported_witness :
    Channels.Match ⟨[⟨"version", "stable-2.1.0"⟩, ⟨"foo", "foo-1.2.3"⟩, ⟨"bar", "bar-3.2.1"⟩]⟩
        "unsupported-version-channel" =
      .error "unsupported version channel: unsupported-version-channel" ∧
    Channels.Match ⟨[]⟩ "dev-undefined" = .error "unsupported version channel: dev-undefined" :=
  ⟨Channels_Match_unsupported _ "unsupported-version-channel" (by decide) (by decide)
      (by decide),
    Channels_Match_unsupported ⟨[]⟩ "dev-undefined" (by decide) (by decide) (by decide)⟩

theorem matchLoop_first (actualVersion : String) (actual : channelVersion)
    (l : List channelVersion) :
    Channels.matchLoop actualVersion actual l =
      match firstOfChannel actual.channel l with
      | some e => Match e.String actual.String
      | none => .error ("unsupported version channel: " ++ actualVersion) := by
  induction l with
  | nil => rfl
  | cons cv rest ih =>
    by_cases h : cv.channel = actual.channel
    · simp [Channels.matchLoop, firstOfChannel, List.find?, h]
    · simp only [Channels.matchLoop, h, if_false, ih]
      simp [firstOfChannel, List.find?, h]

/-- The outcome of `Channels.Match` on a string with a hyphen, by the first
entry of its channel. -/
theorem Channels_Match_of_hyphen (c : Channels) (actual : String) (ha : hasHyphen actual) :
    c.Match actual =
      match firstOfChannel (beforeHyphen actual) c.array with
      | some e => Match e.String actual
      | none => .error ("unsupported version channel: " ++ actual) := by
  have h0 := hyphen_ne_empty actual ha
  simp only [Channels.Match, h0, if_false, parse_of_hyphen actual ha, matchLoop_first]
  simp only [channelVersion.String, before_after actual ha]

/-- C11: for a non-empty `actual` that contains a hyphen, when `e` is the first
entry of `c`, in stored order, whose channel is the text before the first
hyphen of `actual`, `c.Match actual` is `Match e.String actual`; later entries
of the same channel play no part. -/
theorem Channels_Match_first_entry (c : Channels) (actual : String) (e : channelVersion)
    (_hne : actual ≠ "") (ha : hasHyphen actual)
    (hfirst : firstOfChannel (beforeHyphen actual) c.array = some e) :
    c.Match actual = Match e.String actual := by
  rw [Channels_Match_of_hyphen c actual ha, hfirst]

theorem Channels_Match_first_entry_witness :
    Channels.Match
        ⟨[⟨"version", "stable-2.1.0"⟩, ⟨"dev", "latest"⟩, ⟨"dev", "older"⟩]⟩ "dev-older" =
      .error "is running version older but the latest dev version is latest" :=
  (Channels_Match_first_entry _ "dev-older" ⟨"dev", "latest"⟩ (by decide) (by decide)
    (by decide)).trans (by decide)

/-! ## Construction from a string list: `NewChannels` -/

theorem NewChannels_loop_ok (l : List String) (acc : List channelVersion)
    (h : ∀ s ∈ l, hasHyphen s) :
    NewChannels.loop l acc =
      (⟨acc ++ l.map (fun s => ⟨beforeHyphen s, afterHyphen s⟩)⟩, .ok ()) := by
  induction l generalizing acc with
  | nil => simp [NewChannels.loop]
  | cons s rest ih =>
    have hs : hasHyphen s := h s (List.mem_cons_self _ _)
    have hr : ∀ t ∈ rest, hasHyphen t := fun t ht => h t (List.mem_cons_of_mem _ ht)
    simp only [NewChannels.loop, parse_of_hyphen s hs, ih _ hr]
    simp

theorem NewChannels_loop_error (l : List String) (acc : List channelVersion) (s : String)
    (h : l.find? (fun x => ¬ hasHyphen x) = some s) :
    NewChannels.loop l acc = (⟨[]⟩, .error ("unsupported version format: " ++ s)) := by
  induction l generalizing acc with
  | nil => simp at h
  | cons x rest ih =>
    by_cases hx : hasHyphen x
    · have hr : rest.find? (fun x => ¬ hasHyphen x) = some s := by
        simpa [List.find?, hx] using h
      simp only [NewChannels.loop, parse_of_hyphen x hx, ih _ hr]
    · have e : x = s := by simpa [List.find?, hx] using h
      subst e
      simp only [NewChannels.loop, parse_of_no_hyphen x hx]

/-- C12: `NewChannels` is all-or-nothing.  When `s` is the first element
without a hyphen, the result is the empty `Channels` together with the parse
error of `s`, `unsupported version format: <s>`, unchanged.  When every element
has a hyphen, the call succeeds and the entries are the parses of the elements,
one for each, in input order. -/
theorem NewChannels_all_or_nothing (channels : List String) :
    (∀ s, channels.find? (fun x => ¬ hasHyphen x) = some s →
      NewChannels channels = (⟨[]⟩, .error ("unsupported version format: " ++ s)) ∧
      parseChannelVersion s = .error ("unsupported version format: " ++ s)) ∧
    ((∀ s ∈ channels, hasHyphen s) →
      (NewChannels channels).2 = .ok () ∧
      (NewChannels channels).1.array.length = channels.length ∧
      List.Forall₂ (fun s cv => parseChannelVersion s = .ok cv) channels
        (NewChannels channels).1.array) := by
  constructor
  · intro s hs
    refine ⟨NewChannels_loop_error channels [] s hs, parse_of_no_hyphen s ?_⟩
    have := List.find?_some hs
    simpa using this
  · intro h
    unfold NewChannels
    rw [NewChannels_loop_ok channels [] h]
    refine ⟨rfl, by simp, ?_⟩
    simp only [List.nil_append, List.forall₂_map_right_iff]
    exact List.forall₂_same.2 (fun s hs => parse_of_hyphen s (h s hs))

theorem NewChannels_all_or_nothing_witness :
    NewChannels ["dev-foo", "badformat", "edge-1", "worse"] =
        (⟨[]⟩, .error "unsupported version format: badformat") ∧
      (NewChannels ["version-stable-2.1.0", "foo-foo-1.2.3", "dev-undefined"]).2 = .ok () ∧
      (NewChannels ["version-stable-2.1.0", "foo-foo-1.2.3", "dev-undefined"]).1.array.length
        = 3 :=
  ⟨((NewChannels_all_or_nothing ["dev-foo", "badformat", "edge-1", "worse"]).1 "badformat"
      (by decide)).1.trans (by decide),
    ((NewChannels_all_or_nothing
      ["version-stable-2.1.0", "foo-foo-1.2.3", "dev-undefined"]).2 (by decide)).1,
    ((NewChannels_all_or_nothing
      ["version-stable-2.1.0", "foo-foo-1.2.3", "dev-undefined"]).2 (by decide)).2.1⟩

/-! ## Queries on a channel-unique set -/

theorem firstOfChannel_perm (ch : String) (l₁ l₂ : List channelVersion) (hp : l₁.Perm l₂)
    (hnd : (l₁.map (·.channel)).Nodup) :
    firstOfChannel ch l₁ = firstOfChannel ch l₂ := by
  induction hp with
  | nil => rfl
  | cons x _ ih =>
    have hnd2 := (List.nodup_cons.1 hnd).2
    by_cases hx : x.channel = ch
    · simp [firstOfChannel, List.find?, hx]
    · simpa [firstOfChannel, List.find?, hx] using ih hnd2
  | swap x y l =>
    have hxy : y.channel ≠ x.channel := by
      have := (List.nodup_cons.1 hnd).1
      intro e
      exact this (by simp [e])
    by_cases hx : x.channel = ch
    · have hy : ¬ y.channel = ch := fun e => hxy (e.trans hx.symm)
      simp [firstOfChannel, List.find?, hx, hy]
    · by_cases hy : y.channel = ch
      · simp [firstOfChannel, List.find?, hx, hy]
      · simp [firstOfChannel, List.find?, hx, hy]
  | trans h₁ _ ih₁ ih₂ =>
    exact (ih₁ hnd).trans (ih₂ (((h₁.map _).nodup_iff).1 hnd))

/-- C15: on a set whose entries have pairwise different channels the order of
the entries does not matter: for every rearrangement `c'` of the entries of `c`
and every string `actual`, `c'.Match actual` and `c.Match actual` are the same
result, success or the same error text. -/
theorem Channels_Match_perm (c c' : Channels) (actual : String)
    (hnd : (c.array.map (·.channel)).Nodup) (hp : c'.array.Perm c.array) :
    c'.Match actual = c.Match actual := by
  unfold Channels.Match
  by_cases h0 : actual = ""
  · simp [h0]
  · simp only [h0, if_false]
    cases parseChannelVersion actual with
    | error err => rfl
    | ok a =>
      simp only [matchLoop_first]
      rw [firstOfChannel_perm a.channel c.array c'.array hp.symm hnd]

theorem Channels_Match_perm_witness :
    Channels.Match ⟨[⟨"dev", "latest"⟩, ⟨"foo", "foo-1.2.3"⟩, ⟨"version", "stable-2.1.0"⟩]⟩
        "dev-older" =
      Channels.Match ⟨[⟨"version", "stable-2.1.0"⟩, ⟨"foo", "foo-1.2.3"⟩, ⟨"dev", "latest"⟩]⟩
        "dev-older" :=
  Channels_Match_perm
    ⟨[⟨"version", "stable-2.1.0"⟩, ⟨"foo", "foo-1.2.3"⟩, ⟨"dev", "latest"⟩]⟩
    ⟨[⟨"dev", "latest"⟩, ⟨"foo", "foo-1.2.3"⟩, ⟨"version", "stable-2.1.0"⟩]⟩
    "dev-older" (by decide) (by decide)

/-! ## The outcomes of `Channels.Match` -/

theorem Match_self (s : String) (h : s ≠ "") : Match s s = .ok () := by
  simp [Match, h]

theorem Match_ok_eq (expected actual : String) (h : Match expected actual = .ok ()) :
    expected = actual := by
  unfold Match at h
  by_cases h1 : expected = ""
  · simp [h1] at h
  · by_cases h2 : actual = ""
    · simp [h1, h2] at h
    · by_cases h3 : actual = expected
      · exact h3.symm
      · simp only [h1, h2, h3, if_false] at h
        cases hpa : parseChannelVersion actual with
        | error e => simp [hpa] at h
        | ok a =>
          cases hpe : parseChannelVersion expected with
          | error e => simp [hpa, hpe] at h
          | ok e =>
            by_cases hc : a.channel = e.channel <;> simp [hpa, hpe, hc] at h

/-- An entry found for the channel of `actual` renders as `actual` exactly when
its version is the text after the first hyphen of `actual`. -/
theorem String_eq_iff_version (e : channelVersion) (actual : String) (ha : hasHyphen actual)
    (hch : e.channel = beforeHyphen actual) :
    e.String = actual ↔ e.version = afterHyphen actual := by
  have hno : ¬ hasHyphen e.channel := by
    rw [hch]
    exact before_no_hyphen actual
  constructor
  · intro h
    rw [← h, after_String e hno]
  · intro h
    rw [channelVersion.String, hch, h, before_after actual ha]

theorem firstOfChannel_some (ch : String) (l : List channelVersion) (e : channelVersion)
    (h : firstOfChannel ch l = some e) : e ∈ l ∧ e.channel = ch := by
  unfold firstOfChannel at h
  exact ⟨List.mem_of_find?_eq_some h, by simpa using List.find?_some h⟩

/-- C16: `c.Match actual` returns no error exactly when `actual` contains a
hyphen and the first entry of `c` whose channel is the text before the first
hyphen of `actual` has, as its version, the text after that hyphen. -/
theorem Channels_Match_ok_iff (c : Channels) (actual : String) :
    c.Match actual = .ok () ↔
      hasHyphen actual ∧
        ∃ e, firstOfChannel (beforeHyphen actual) c.array = some e ∧
          e.version = afterHyphen actual := by
  by_cases ha : hasHyphen actual
  · rw [Channels_Match_of_hyphen c actual ha]
    cases hf : firstOfChannel (beforeHyphen actual) c.array with
    | none => simp [ha]
    | some e =>
      have hch := (firstOfChannel_some _ _ _ hf).2
      have hiff := String_eq_iff_version e actual ha hch
      simp only [ha, true_and, Option.some.injEq, exists_eq_left']
      constructor
      · intro h
        exact hiff.1 (Match_ok_eq _ _ h)
      · intro h
        rw [hiff.2 h]
        exact Match_self actual (hyphen_ne_empty actual ha)
  · have hne : c.Match actual ≠ .ok () := by
      unfold Channels.Match
      by_cases h0 : actual = ""
      · simp [h0]
      · simp [h0, parse_of_no_hyphen actual ha]
    simp [ha, hne]

/-- Two texts whose first `n` characters differ stay different whatever is
appended to them. -/
theorem append_ne_of_take (n : Nat) (p q x y : String) (hp : n ≤ p.data.length)
    (hq : n ≤ q.data.length) (h : p.data.take n ≠ q.data.take n) : p ++ x ≠ q ++ y := by
  intro e
  have e2 := congrArg (fun s => s.data.take n) e
  simp only [String.data_append, List.take_append_of_le_length hp,
    List.take_append_of_le_length hq] at e2
  exact h e2

/-- The five outcomes of `Channels.Match`. -/
theorem Channels_Match_cases (c : Channels) (actual : String) :
    c.Match actual = .ok () ∨
      c.Match actual = .error "actual version is empty" ∨
      c.Match actual =
        .error ("failed to parse actual version: unsupported version format: " ++ actual) ∨
      c.Match actual = .error ("unsupported version channel: " ++ actual) ∨
      ∃ e ∈ c.array, e.channel = beforeHyphen actual ∧ e.version ≠ afterHyphen actual ∧
        c.Match actual =
          .error ("is running version " ++ afterHyphen actual ++ " but the latest " ++
            beforeHyphen actual ++ " version is " ++ e.version) := by
  by_cases h0 : actual = ""
  · right; left
    simp [Channels.Match, h0]
  by_cases ha : hasHyphen actual
  · rw [Channels_Match_of_hyphen c actual ha]
    cases hf : firstOfChannel (beforeHyphen actual) c.array with
    | none => right; right; right; left; rfl
    | some e =>
      obtain ⟨hmem, hch⟩ := firstOfChannel_some _ _ _ hf
      have hno : ¬ hasHyphen e.channel := by
        rw [hch]
        exact before_no_hyphen actual
      by_cases heq : e.String = actual
      · left
        show Match e.String actual = .ok ()
        rw [heq]
        exact Match_self actual h0
      · right; right; right; right
        refine ⟨e, hmem, hch, fun hv => heq ((String_eq_iff_version e actual ha hch).2 hv), ?_⟩
        show Match e.String actual = _
        rw [Match_of_hyphens e.String actual heq (hyphen_in_String e) ha,
          before_String e hno, after_String e hno, hch]
        simp
  · right; right; left
    simp only [Channels.Match, h0, if_false, parse_of_no_hyphen actual ha]
    rw [← String.append_assoc]
    rfl

/-- C17: the comparison inside `Channels.Match` ends in success or in a version
mismatch only.  For every `Channels` value and every string, the result is
success, `actual version is empty`, `failed to parse actual version: ...`,
`unsupported version channel: ...` or `is running version ... but the latest
... version is ...`; it is never a `mismatched channels: ...` error and never a
`failed to parse expected version: ...` error. -/
theorem Channels_Match_outcomes (c : Channels) (actual : String) :
    (c.Match actual = .ok () ∨
      c.Match actual = .error "actual version is empty" ∨
      c.Match actual =
        .error ("failed to parse actual version: unsupported version format: " ++ actual) ∨
      c.Match actual = .error ("unsupported version channel: " ++ actual) ∨
      ∃ e ∈ c.array,
        c.Match actual =
          .error ("is running version " ++ afterHyphen actual ++ " but the latest " ++
            beforeHyphen actual ++ " version is " ++ e.version)) ∧
    (∀ a b, c.Match actual ≠
      .error ("mismatched channels: running " ++ a ++ " but retrieved " ++ b)) ∧
    (∀ m, c.Match actual ≠ .error ("failed to parse expected version: " ++ m)) := by
  have hc := Channels_Match_cases c actual
  have hempty : ("actual version is empty" : String) = "actual version is empty" ++ "" := rfl
  refine ⟨?_, ?_, ?_⟩
  · rcases hc with h | h | h | h | ⟨e, hmem, _, _, h⟩
    · exact Or.inl h
    · exact Or.inr (Or.inl h)
    · exact Or.inr (Or.inr (Or.inl h))
    · exact Or.inr (Or.inr (Or.inr (Or.inl h)))
    · exact Or.inr (Or.inr (Or.inr (Or.inr ⟨e, hmem, h⟩)))
  · intro a b
    rcases hc with h | h | h | h | ⟨e, _, _, _, h⟩ <;> rw [h]
    · simp
    all_goals
      intro he
      injection he with he
      revert he
      try rw [hempty]
      try simp only [String.append_assoc]
      exact append_ne_of_take 1 _ _ _ _ (by decide) (by decide) (by decide)
  · intro m
    rcases hc with h | h | h | h | ⟨e, _, _, _, h⟩ <;> rw [h]
    · simp
    all_goals
      intro he
      injection he with he
      revert he
      try rw [hempty]
      try simp only [String.append_assoc]
      exact append_ne_of_take 17 _ _ _ _ (by decide) (by decide) (by decide)

/-! ## The version-mismatch message -/

/-- C18: when `Match expected actual` fails with the message of its final
branch, `is running version <av> but the latest <ch> version is <ev>` for the
parsed `actual` and `expected`, the two parsed version tokens differ. -/
theorem Match_mismatch_versions_differ (expected actual : String) (a e : channelVersion)
    (ha : parseChannelVersion actual = .ok a) (he : parseChannelVersion expected = .ok e)
    (hm : Match expected actual =
      .error ("is running version " ++ a.version ++ " but the latest " ++ a.channel ++
        " version is " ++ e.version)) :
    a.version ≠ e.version := by
  obtain ⟨hha, rfl⟩ := parse_ok_inv actual a ha
  obtain ⟨hhe, rfl⟩ := parse_ok_inv expected e he
  have hne : expected ≠ actual := by
    intro heq
    subst heq
    rw [Match_self expected (hyphen_ne_empty expected hhe)] at hm
    cases hm
  intro hv
  simp only at hv hm
  by_cases hch : beforeHyphen actual = beforeHyphen expected
  · apply hne
    rw [← before_after expected hhe, ← before_after actual hha, hch, hv]
  · rw [Match_of_hyphens expected actual hne hhe hha, if_pos hch] at hm
    injection hm with hm
    revert hm
    simp only [String.append_assoc]
    exact append_ne_of_take 1 _ _ _ _ (by decide) (by decide) (by decide)

theorem Match_mismatch_versions_differ_witness :
    Match "dev-foo-bar" "dev-foo-baz" =
        .error "is running version foo-baz but the latest dev version is foo-bar" ∧
      ("foo-baz" : String) ≠ "foo-bar" :=
  ⟨by decide,
    Match_mismatch_versions_differ "dev-foo-bar" "dev-foo-baz" ⟨"dev", "foo-baz"⟩
      ⟨"dev", "foo-bar"⟩ (by decide) (by decide) (by decide)⟩

/-! ## The comparator `byCV.Less` -/

theorem data_ne_of_ne (a b : String) (h : a ≠ b) : a.data ≠ b.data :=
  fun e => h (String.ext e)

/-- On two entries of different channels `byCV.Less` is the plain order of the
channels. -/
theorem Less_iff_lt (x y : channelVersion) (h : x.channel ≠ y.channel) :
    byCV.Less x y = true ↔ x.channel.data < y.channel.data := by
  unfold byCV.Less
  by_cases hx : x.channel = ""
  · have hy : y.channel.data ≠ [] := by
      intro e
      exact h (hx.trans (String.ext (by rw [e])))
    simp only [hx, if_true, true_iff]
    cases hd : y.channel.data with
    | nil => exact absurd hd hy
    | cons c l => exact List.Lex.nil
  · by_cases hy : y.channel = ""
    · simp only [hx, hy, if_false, if_true]
      have : ("" : String).data = [] := rfl
      simp [this]
    · simp only [hx, hy, if_false, decide_eq_true_eq]

/-- C19, as stated, fails in its last part: an entry with the empty channel is
`Less` than itself. -/
theorem Less_empty_self :
    byCV.Less ⟨"", "1.2.3"⟩ ⟨"", "1.2.3"⟩ = true ∧ ¬ (∀ x, byCV.Less x x = false) := by
  refine ⟨by decide, fun h => ?_⟩
  exact absurd (h ⟨"", "1.2.3"⟩) (by decide)

/-- C19, amended: on two entries of different channels `byCV.Less x y` holds
exactly when the channel of `x` is below the channel of `y` in the plain order
of strings, and exactly one of `Less x y`, `Less y x` holds; and `Less x x` is
false for every entry with a non-empty channel. -/
theorem Less_strict_total (x y : channelVersion) :
    (x.channel ≠ y.channel →
      (byCV.Less x y = true ↔ x.channel.data < y.channel.data) ∧
      ((byCV.Less x y = true ∧ byCV.Less y x = false) ∨
        (byCV.Less x y = false ∧ byCV.Less y x = true))) ∧
    (x.channel ≠ "" → byCV.Less x x = false) := by
  constructor
  · intro h
    have hxy := Less_iff_lt x y h
    have hyx := Less_iff_lt y x (fun e => h e.symm)
    refine ⟨hxy, ?_⟩
    rcases lt_or_gt_of_ne (data_ne_of_ne _ _ h) with hlt | hgt
    · left
      refine ⟨hxy.2 hlt, ?_⟩
      cases hb : byCV.Less y x with
      | false => rfl
      | true => exact absurd (hyx.1 hb) (lt_asymm hlt)
    · right
      refine ⟨?_, hyx.2 hgt⟩
      cases hb : byCV.Less x y with
      | false => rfl
      | true => exact absurd (hxy.1 hb) (lt_asymm hgt)
  · intro h
    simp [byCV.Less, h]

/-! ## Sorting by `byCV` -/

theorem shift_perm (x : channelVersion) (done : List channelVersion) :
    (insertionSort.shift x done).Perm (x :: done) := by
  induction done with
  | nil => exact List.Perm.refl _
  | cons p ps ih =>
    by_cases h : byCV.Less x p = true
    · simp only [insertionSort.shift, h, if_true]
      exact (List.Perm.cons p ih).trans (List.Perm.swap x p ps)
    · simp only [insertionSort.shift, h, if_false]
      exact List.Perm.refl _

/-- Moving a new entry into a strictly descending run of other channels keeps
the run strictly descending. -/
theorem shift_descending (x : channelVersion) (done : List channelVersion)
    (hx : ∀ p ∈ done, p.channel ≠ x.channel)
    (hd : done.Pairwise (fun a b => b.channel.data < a.channel.data)) :
    (insertionSort.shift x done).Pairwise (fun a b => b.channel.data < a.channel.data) := by
  induction done with
  | nil => simp [insertionSort.shift]
  | cons p ps ih =>
    have hpx : p.channel ≠ x.channel := hx p (List.mem_cons_self _ _)
    have hps : ∀ q ∈ ps, q.channel ≠ x.channel := fun q hq => hx q (List.mem_cons_of_mem _ hq)
    obtain ⟨hp, hd2⟩ := List.pairwise_cons.1 hd
    have hiff := Less_iff_lt x p (fun e => hpx e.symm)
    by_cases h : byCV.Less x p = true
    · simp only [insertionSort.shift, h, if_true]
      refine List.pairwise_cons.2 ⟨?_, ih hps hd2⟩
      intro q hq
      rcases List.mem_cons.1 ((shift_perm x ps).mem_iff.1 hq) with rfl | hq
      · exact hiff.1 h
      · exact hp q hq
    · simp only [insertionSort.shift, h, if_false]
      have hlt : p.channel.data < x.channel.data := by
        rcases lt_or_gt_of_ne (data_ne_of_ne _ _ hpx) with h1 | h1
        · exact h1
        · exact absurd (hiff.2 h1) h
      refine List.pairwise_cons.2 ⟨?_, hd⟩
      intro q hq
      rcases List.mem_cons.1 hq with rfl | hq
      · exact hlt
      · exact lt_trans (hp q hq) hlt

theorem insertionSort_loop_spec (rest done : List channelVersion)
    (hnd : ((rest ++ done).map (·.channel)).Nodup)
    (hd : done.Pairwise (fun a b => b.channel.data < a.channel.data)) :
    (insertionSort.loop rest done).Perm (rest ++ done) ∧
      (insertionSort.loop rest done).Pairwise
        (fun a b => a.channel.data < b.channel.data) := by
  induction rest generalizing done with
  | nil =>
    simp only [insertionSort.loop, List.nil_append]
    exact ⟨List.reverse_perm done, List.pairwise_reverse.2 hd⟩
  | cons x rest ih =>
    have hperm : (rest ++ insertionSort.shift x done).Perm (x :: rest ++ done) :=
      ((shift_perm x done).append_left rest).trans List.perm_middle
    have hnd2 : ((rest ++ insertionSort.shift x done).map (·.channel)).Nodup :=
      ((hperm.map _).nodup_iff).2 hnd
    have hx : ∀ p ∈ done, p.channel ≠ x.channel := by
      intro p hp e
      have h1 := (List.nodup_cons.1 hnd).1
      apply h1
      show x.channel ∈ List.map (·.channel) (rest ++ done)
      rw [← e]
      exact List.mem_map_of_mem _ (List.mem_append_right _ hp)
    obtain ⟨h1, h2⟩ := ih (insertionSort.shift x done) hnd2 (shift_descending x done hx hd)
    exact ⟨h1.trans hperm, h2⟩

/-- An ascending run of channels has no entry `Less` than an earlier one. -/
theorem not_Less_of_ascending (l : List channelVersion)
    (h : l.Pairwise (fun a b => a.channel.data < b.channel.data)) :
    l.Pairwise (fun x y => byCV.Less y x = false) := by
  refine h.imp ?_
  intro a b hab
  have hne : b.channel ≠ a.channel := fun e => absurd hab (by rw [e]; exact lt_irrefl _)
  cases hb : byCV.Less b a with
  | false => rfl
  | true => exact absurd ((Less_iff_lt b a hne).1 hb) (lt_asymm hab)

/-- The insertion sort of package `sort` meets the contract of `sort.Sort`. -/
theorem insertionSort_sorts : SortsByCV insertionSort := by
  intro a hnd
  have h := insertionSort_loop_spec a [] (by simpa using hnd) List.Pairwise.nil
  exact ⟨by simpa using h.1, not_Less_of_ascending _ h.2⟩

/-- A slice of pairwise different channels that is sorted for `byCV.Less` is in
strictly ascending order of channel. -/
theorem ascending_of_not_Less (l : List channelVersion)
    (hnd : (l.map (·.channel)).Nodup)
    (h : l.Pairwise (fun x y => byCV.Less y x = false)) :
    l.Pairwise (fun a b => a.channel.data < b.channel.data) := by
  have hne : l.Pairwise (fun a b => a.channel ≠ b.channel) := List.pairwise_map.1 hnd
  refine (hne.and h).imp ?_
  intro a b hab
  rcases lt_or_gt_of_ne (data_ne_of_ne _ _ hab.1) with h1 | h1
  · exact h1
  · have := (Less_iff_lt b a (fun e => hab.1 e.symm)).2 h1
    rw [hab.2] at this
    cases this

theorem ascending_unique (l₁ l₂ : List channelVersion) (hp : l₁.Perm l₂)
    (h₁ : l₁.Pairwise (fun a b => a.channel.data < b.channel.data))
    (h₂ : l₂.Pairwise (fun a b => a.channel.data < b.channel.data)) : l₁ = l₂ := by
  haveI : IsAntisymm channelVersion (fun a b => a.channel.data < b.channel.data) :=
    ⟨fun _ _ hab hba => absurd hba (lt_asymm hab)⟩
  exact List.eq_of_perm_of_sorted hp h₁ h₂

theorem foldl_append_entries (m : List (String × String)) (acc : List channelVersion) :
    m.foldl (fun array cv => array ++ [(⟨cv.1, cv.2⟩ : channelVersion)]) acc =
      acc ++ m.map (fun cv => ⟨cv.1, cv.2⟩) := by
  induction m generalizing acc with
  | nil => simp
  | cons kv rest ih => simp [List.foldl, ih]

/-! ## Construction from a channel-to-version map -/

/-- C13: building a `Channels` value from a map with distinct keys gives the
same result for every order in which the entries are visited: one entry per
map entry, channel the key and version the value as stored, in ascending order
of channel.  The sort is any function that meets the contract of
`sort.Sort`. -/
theorem getLatestVersions_build_sorted (sort : List channelVersion → List channelVersion)
    (hs : SortsByCV sort) (m m' : List (String × String))
    (hk : (m.map Prod.fst).Nodup) (hp : m'.Perm m) :
    getLatestVersions.build sort m' = getLatestVersions.build sort m ∧
      (getLatestVersions.build sort m).array.Perm (m.map (fun kv => ⟨kv.1, kv.2⟩)) ∧
      (getLatestVersions.build sort m).array.Pairwise
        (fun a b => a.channel.data < b.channel.data) ∧
      sortedByChannel (getLatestVersions.build sort m).array := by
  have key : ∀ n : List (String × String), (n.map Prod.fst).Nodup →
      (sort (n.map (fun kv => (⟨kv.1, kv.2⟩ : channelVersion)))).Perm
          (n.map (fun kv => ⟨kv.1, kv.2⟩)) ∧
        (sort (n.map (fun kv => (⟨kv.1, kv.2⟩ : channelVersion)))).Pairwise
          (fun a b => a.channel.data < b.channel.data) := by
    intro n hn
    have hnd : ((n.map (fun kv => (⟨kv.1, kv.2⟩ : channelVersion))).map (·.channel)).Nodup := by
      simpa [List.map_map, Function.comp_def] using hn
    obtain ⟨h1, h2⟩ := hs _ hnd
    exact ⟨h1, ascending_of_not_Less _ (((h1.map _).nodup_iff).2 hnd) h2⟩
  have hk' : (m'.map Prod.fst).Nodup := ((hp.map _).nodup_iff).2 hk
  obtain ⟨p1, s1⟩ := key m hk
  obtain ⟨p2, s2⟩ := key m' hk'
  simp only [getLatestVersions.build, foldl_append_entries, List.nil_append]
  refine ⟨?_, p1, s1, s1.imp (fun h => le_of_lt h)⟩
  rw [ascending_unique _ _ ((p2.trans (hp.map _)).trans p1.symm) s2 s1]

theorem getLatestVersions_build_sorted_witness :
    getLatestVersions.build insertionSort
        [("version", "stable-2.1.0"), ("dev", "undefined"), ("foo", "foo-1.2.3")] =
      ⟨[⟨"dev", "undefined"⟩, ⟨"foo", "foo-1.2.3"⟩, ⟨"version", "stable-2.1.0"⟩]⟩ :=
  (getLatestVersions_build_sorted insertionSort insertionSort_sorts
    [("dev", "undefined"), ("foo", "foo-1.2.3"), ("version", "stable-2.1.0")]
    [("version", "stable-2.1.0"), ("dev", "undefined"), ("foo", "foo-1.2.3")]
    (by decide) (by decide)).1.trans (by decide)

/-! ## The order of a set built from a string list -/

theorem NewChannels_ok_hyphens (channels : List String)
    (h : (NewChannels channels).2 = .ok ()) : ∀ s ∈ channels, hasHyphen s := by
  cases hf : channels.find? (fun x => ¬ hasHyphen x) with
  | none =>
    intro s hs
    have := List.find?_eq_none.1 hf s hs
    simpa using this
  | some s =>
    unfold NewChannels at h
    rw [NewChannels_loop_error channels [] s hf] at h
    cases h

/-- C14, as stated, fails: `NewChannels` succeeds on a list that is not in
order of channel and returns the entries in the order of the list. -/
theorem NewChannels_unsorted :
    NewChannels ["version-stable-2.1.0", "dev-undefined"] =
        (⟨[⟨"version", "stable-2.1.0"⟩, ⟨"dev", "undefined"⟩]⟩, .ok ()) ∧
      ¬ sortedByChannel (NewChannels ["version-stable-2.1.0", "dev-undefined"]).1.array := by
  refine ⟨by decide, by decide⟩

/-- C14, amended: when `NewChannels` succeeds, the channels of the returned
entries are the texts before the first hyphen of the elements, in input order;
so the entries are in ascending order of channel exactly when the list is
already in that order. -/
theorem NewChannels_keeps_order (channels : List String)
    (h : (NewChannels channels).2 = .ok ()) :
    (NewChannels channels).1.array.map (·.channel) = channels.map beforeHyphen ∧
      (sortedByChannel (NewChannels channels).1.array ↔
        (channels.map beforeHyphen).Pairwise (fun a b => a.data ≤ b.data)) := by
  have hh := NewChannels_ok_hyphens channels h
  unfold NewChannels
  rw [NewChannels_loop_ok channels [] hh]
  refine ⟨?_, ?_⟩
  · simp only [List.nil_append, List.map_map]
    rfl
  · simp only [List.nil_append, sortedByChannel, List.pairwise_map]

theorem NewChannels_keeps_order_witness :
    (NewChannels ["version-stable-2.1.0", "dev-undefined"]).1.array.map (·.channel) =
        ["version-stable-2.1.0", "dev-undefined"].map beforeHyphen ∧
      (sortedByChannel (NewChannels ["version-stable-2.1.0", "dev-undefined"]).1.array ↔
        (["version-stable-2.1.0", "dev-undefined"].map beforeHyphen).Pairwise
          (fun a b => a.data ≤ b.data)) :=
  NewChannels_keeps_order ["version-stable-2.1.0", "dev-undefined"] (by decide)
